import Mathlib

/-!
Shallow embedding of the aiguide pipeline (src/main.go) and proofs about it.

The embedding follows the source: `writeHeaderAndToC` (title, table of
contents, anchor slugs), `generateConceptList` (line filtering), and
`processChunks` (chunk partitioning, the worker pool writing an
index-addressed results slice, and the rendering loop).  Go strings are
modelled as `List Char` or `String`, Go `int` as `Int`, runtime panics as
`none`, and the outcome of each chunk's generation call as an oracle
`gen : Nat → Except String String`.  Concurrency is modelled by the order
in which completed jobs write their results (`poolRun` over a schedule);
with at least one worker every job is delivered exactly once, so an
admissible schedule is a permutation of the job list.
-/

namespace Aiguide

/-- Whitespace test matching Go `unicode.IsSpace` on the ASCII range
(space, tab, newline, vertical tab, form feed, carriage return). -/
def isSpace (c : Char) : Bool :=
  c == ' ' || c == '\t' || c == '\n' || c == '\x0b' || c == '\x0c' || c == '\r'

/-- Leading and trailing whitespace removal, modelling Go `strings.TrimSpace`. -/
def trimSpaceL (l : List Char) : List Char :=
  ((l.dropWhile isSpace).reverse.dropWhile isSpace).reverse

/-- String wrapper around `trimSpaceL`. -/
def trimSpace (s : String) : String := ⟨trimSpaceL s.data⟩

/-- Boolean list-prefix test, modelling Go `strings.HasPrefix`. -/
def isPreOf : List Char → List Char → Bool
  | [], _ => true
  | _ :: _, [] => false
  | a :: as, b :: bs => a == b && isPreOf as bs

/-- Go `strings.TrimPrefix`: drop the leading occurrence when present, else identity. -/
def trimPreL (p l : List Char) : List Char :=
  if isPreOf p l then l.drop p.length else l

/-- Go `strings.TrimSuffix`: drop the trailing occurrence when present, else identity. -/
def trimSufL (p l : List Char) : List Char :=
  (trimPreL p.reverse l.reverse).reverse

/-- Fence cleanup applied by processChunks workers (main.go 256-259):
TrimSpace, TrimPrefix of a markdown fence opener, TrimPrefix of three
backticks, TrimSuffix of three backticks, in that order. -/
def cleanContentL (l : List Char) : List Char :=
  trimSufL ("```".data) (trimPreL ("```".data) (trimPreL ("```markdown".data) (trimSpaceL l)))

/-- String wrapper around `cleanContentL`. -/
def cleanContent (s : String) : String := ⟨cleanContentL s.data⟩

/-- Go `strings.SplitN(c, " ", 2)`: the part before the first space and the
remainder; `none` when `c` contains no space, in which case SplitN returns a
single part and the ToC loop takes its continue branch (main.go 195-198). -/
def splitFirstSpace : List Char → Option (List Char × List Char)
  | [] => none
  | c :: cs =>
    if c == ' ' then some ([], cs)
    else
      match splitFirstSpace cs with
      | none => none
      | some pr => some (c :: pr.1, pr.2)

/-- Character class kept by replacing every match of the regular expression
outside the class a-z, 0-9, space with the empty string (main.go 201-202). -/
def isAllowedChar (c : Char) : Bool :=
  ('a' ≤ c && c ≤ 'z') || ('0' ≤ c && c ≤ '9') || c == ' '

/-- Go `strings.ToLower`, modelled with `Char.toLower` (agrees on ASCII). -/
def lowerL (l : List Char) : List Char := l.map Char.toLower

/-- Deletion of every character outside the allowed class (main.go 201-202). -/
def stripDisallowed (l : List Char) : List Char := l.filter isAllowedChar

/-- Go `strings.ReplaceAll(s, " ", "-")`: every single space becomes one hyphen. -/
def spacesToHyphens (l : List Char) : List Char :=
  l.map fun c => if c == ' ' then '-' else c

/-- Anchor slug computed for one concept line by writeHeaderAndToC
(main.go 194-206); `none` models the continue branch for lines without a space. -/
def fullSlugL (c : List Char) : Option (List Char) :=
  match splitFirstSpace c with
  | none => none
  | some pr =>
    some (trimSufL (".".data) pr.1 ++
      '-' :: spacesToHyphens (trimSpaceL (stripDisallowed (lowerL pr.2))))

/-- Table-of-contents line contributed per concept (main.go 208), newline excluded;
`none` models the continue branch. -/
def tocEntryL (c : List Char) : Option (List Char) :=
  (fullSlugL c).map fun slug => ("- [".data) ++ c ++ ("](#".data) ++ slug ++ (")".data)

/-- Concatenation of ToC entry lines produced by the loop in writeHeaderAndToC. -/
def tocBody : List (List Char) → List Char
  | [] => []
  | c :: rest =>
    match tocEntryL c with
    | none => tocBody rest
    | some e => e ++ '\n' :: tocBody rest

/-- Go `strings.ToUpper`, modelled with `Char.toUpper` (agrees on ASCII). -/
def upperL (l : List Char) : List Char := l.map Char.toUpper

/-- Full output of writeHeaderAndToC: title line, ToC header, entry lines and
the trailing separator (main.go 190-213). -/
def headerAndToC (subject : List Char) (concepts : List (List Char)) : List Char :=
  ("# Comprehensive Guide: ".data) ++ upperL subject ++ ("\n\n".data) ++
    ("## Table of Contents\n\n".data) ++ tocBody concepts ++ ("\n---\n\n".data)

/-- Character class named by claim C6: lowercase alphanumerics, whitespace, hyphen. -/
def keepClaimed (c : Char) : Bool :=
  ('a' ≤ c && c ≤ 'z') || ('0' ≤ c && c ≤ '9') || isSpace c || c == '-'

/-- Helper for `collapseWsL`: the flag records whether the previous character
was whitespace, so a whole whitespace run yields a single hyphen. -/
def collapseGo : Bool → List Char → List Char
  | _, [] => []
  | prevSpace, c :: cs =>
    if isSpace c then
      if prevSpace then collapseGo true cs else '-' :: collapseGo true cs
    else c :: collapseGo false cs

/-- Collapse of every whitespace run into a single hyphen, as worded by claim C6. -/
def collapseWsL (l : List Char) : List Char := collapseGo false l

/-- Anchor as claim C6 states it: lower-case the text part, strip characters
outside lowercase alphanumerics, whitespace and hyphen, collapse internal
whitespace runs to single hyphens, and attach the ordinal with a hyphen.
This definition follows the claim wording, for comparison with `fullSlugL`. -/
def anchorClaimedL (c : List Char) : Option (List Char) :=
  match splitFirstSpace c with
  | none => none
  | some pr =>
    some (trimSufL (".".data) pr.1 ++
      '-' :: collapseWsL (trimSpaceL ((lowerL pr.2).filter keepClaimed)))

/-- Character class of the amended claim C6: lowercase letters, digits, or space. -/
def allowedAmended (c : Char) : Bool := c.isLower || c.isDigit || c == ' '

/-- Single left-to-right pass of the amended claim C6: keep lowercase
alphanumerics, turn each space into exactly one hyphen, drop everything else. -/
def slugPass : List Char → List Char
  | [] => []
  | c :: cs =>
    if c.isLower || c.isDigit then c :: slugPass cs
    else if c == ' ' then '-' :: slugPass cs
    else slugPass cs

/-- Removal of leading and trailing space characters only. -/
def dropEndSpaces (l : List Char) : List Char :=
  ((l.dropWhile (· == ' ')).reverse.dropWhile (· == ' ')).reverse

/-- Anchor as amended for claim C6: lower-case the text part, strip every
character outside lowercase alphanumerics and space, trim surrounding spaces,
then turn each remaining space into exactly one hyphen, prefixed by the first
token with one trailing dot removed, joined by a hyphen. -/
def anchorAmendedL (c : List Char) : Option (List Char) :=
  match splitFirstSpace c with
  | none => none
  | some pr =>
    some (trimSufL (".".data) pr.1 ++
      '-' :: slugPass (dropEndSpaces ((pr.2.map Char.toLower).filter allowedAmended)))

/-- Line splitter at newline characters, modelling the bufio scanner in
generateConceptList; the scanner never yields a final empty token, but that
token is removed by the keep filter below, so the outputs agree. -/
def splitNl : List Char → List (List Char)
  | [] => [[]]
  | c :: cs =>
    if c == '\n' then [] :: splitNl cs
    else
      match splitNl cs with
      | [] => [[c]]
      | h :: t => (c :: h) :: t

/-- Go helper unicodeIsDigit (main.go 186-188): ASCII digit test. -/
def unicodeIsDigit (c : Char) : Bool := '0' ≤ c && c ≤ '9'

/-- Keep test of generateConceptList (main.go 179): a nonempty trimmed line whose
first character is an ASCII digit or which starts with a hyphen. -/
def keepLine (l : List Char) : Bool :=
  match l with
  | [] => false
  | c :: _ => unicodeIsDigit c || isPreOf ("-".data) l

/-- Filtering pass of generateConceptList over the raw response text
(main.go 175-183): each scanned line is trimmed and kept only when `keepLine`
holds; every other line is discarded. -/
def generateConceptList (resp : List Char) : List (List Char) :=
  ((splitNl resp).map trimSpaceL).filter keepLine

/-- Configuration fields consumed by processChunks; Go ints modelled as `Int`. -/
structure Config where
  chunkSize : Int
  threads : Int

/-- Go slice expression xs[lo:hi]; `none` models the slice-bounds panic. -/
def goSlice (xs : List String) (lo hi : Int) : Option (List String) :=
  if 0 ≤ lo ∧ lo ≤ hi ∧ hi ≤ (xs.length : Int) then
    some ((xs.drop lo.toNat).take (hi - lo).toNat)
  else none

/-- Items of chunk `i` as built by the enqueue loop of processChunks
(main.go 268-278): start at i times ChunkSize, clamp the end to total. -/
def chunkItems (cfg : Config) (concepts : List String) (i : Nat) : Option (List String) :=
  goSlice concepts ((i : Int) * cfg.chunkSize)
    (if (i : Int) * cfg.chunkSize + cfg.chunkSize > (concepts.length : Int) then
       (concepts.length : Int)
     else (i : Int) * cfg.chunkSize + cfg.chunkSize)

/-- Chunk count as computed in Go (main.go 218): (total + ChunkSize - 1) / ChunkSize
with division truncating toward zero. -/
def numChunksInt (cfg : Config) (total : Int) : Int :=
  (total + cfg.chunkSize - 1).tdiv cfg.chunkSize

/-- Chunk count as a natural number, after the checks modelling the panics. -/
def numChunksNat (cfg : Config) (concepts : List String) : Nat :=
  (numChunksInt cfg concepts.length).toNat

/-- Sequential construction of the job list from the chunk indices; `none`
models a slice-bounds panic while enqueuing. -/
def collectJobs : List Nat → (Nat → Option (List String)) → Option (List (Nat × List String))
  | [], _ => some []
  | i :: rest, f =>
    match f i, collectJobs rest f with
    | some items, some acc => some ((i, items) :: acc)
    | _, _ => none

/-- Job list enqueued by processChunks: chunk indices in increasing order, each
paired with its item slice. -/
def jobsOf (cfg : Config) (concepts : List String) : Option (List (Nat × List String)) :=
  collectJobs (List.range (numChunksNat cfg concepts)) (chunkItems cfg concepts)

/-- Failure placeholder recorded for a chunk whose generation call returned an
error (main.go 253), with the one-based start ordinal and the end ordinal. -/
def errPlaceholder (startOrd endOrd : Int) (e : String) : String :=
  "## Error generating section " ++ toString startOrd ++ "-" ++ toString endOrd ++
    "\n\nAPI Error: " ++ e

/-- Result string one worker records for the job (chunkID, items): the outcome
of the chunk's generation call, or the failure placeholder, then fence cleanup
(main.go 250-259).  The oracle `gen` fixes the outcome of each chunk's call. -/
def workerContent (cfg : Config) (gen : Nat → Except String String)
    (chunkID : Nat) (items : List String) : String :=
  cleanContent (match gen chunkID with
    | Except.ok s => s
    | Except.error e =>
      errPlaceholder ((chunkID : Int) * cfg.chunkSize + 1)
        ((chunkID : Int) * cfg.chunkSize + items.length) e)

/-- State of the results slice after the workers performed their index-addressed
writes in the given completion order; each element of `sched` is one processed
job (main.go 261-263). -/
def poolRun (cfg : Config) (gen : Nat → Except String String)
    (sched : List (Nat × List String)) (numChunks : Nat) : List String :=
  sched.foldl (fun rs j => rs.set j.1 (workerContent cfg gen j.1 j.2))
    (List.replicate numChunks "")

/-- Rendering loop over the results slice (main.go 283-288): each nonempty
content produces one block, the content line plus a horizontal rule. -/
def renderBody : List String → List String
  | [] => []
  | content :: rest =>
    if content == "" then renderBody rest
    else (content ++ "\n" ++ "\n---\n") :: renderBody rest

/-- Admissible write orders: with at least one worker the jobs channel delivers
every job to exactly one worker, in some order, so the write sequence is a
permutation of the job list; with no workers nothing is ever processed. -/
def ValidSched (cfg : Config) (jobs sched : List (Nat × List String)) : Prop :=
  if 1 ≤ cfg.threads then List.Perm sched jobs else sched = []

/-- Whole processChunks call (main.go 216-289): the chunk-count computation
(division by zero and a negative make length are panics, modelled as `none`),
job construction (slice panics as `none`), pool execution under the write order
`sched`, and the rendering loop. -/
def processChunksExec (cfg : Config) (gen : Nat → Except String String)
    (concepts : List String) (sched : List (Nat × List String)) : Option (List String) :=
  if cfg.chunkSize = 0 then none
  else if numChunksInt cfg concepts.length < 0 then none
  else
    match jobsOf cfg concepts with
    | none => none
    | some _ => some (renderBody (poolRun cfg gen sched (numChunksNat cfg concepts)))

/-- Empty-concept check in run (main.go 107-110): the program prints an error
and exits with status 1, before processChunks, when no concepts were produced. -/
def runGate (concepts : List String) : Except String (List String) :=
  if concepts.length = 0 then Except.error "No concepts were generated. Exiting."
  else Except.ok concepts

/-- Slot contents in chunk-index order, determined solely by the job list. -/
def canonicalResults (cfg : Config) (gen : Nat → Except String String)
    (jobs : List (Nat × List String)) : List String :=
  jobs.map fun j => workerContent cfg gen j.1 j.2

/-- Final document: header and table of contents (written before processChunks,
main.go 129-131) followed by the rendered chunk blocks. -/
def document (cfg : Config) (subject : String) (gen : Nat → Except String String)
    (concepts : List String) (sched : List (Nat × List String)) : Option String :=
  (processChunksExec cfg gen concepts sched).map fun blocks =>
    String.mk (headerAndToC subject.data (concepts.map String.data)) ++ String.join blocks

/-! ### Helper lemmas about the character-level functions -/

theorem isPreOf_iff (p : List Char) : ∀ l, isPreOf p l = true ↔ ∃ t, l = p ++ t := by
  induction p with
  | nil => intro l; simp [isPreOf]
  | cons a as ih =>
    intro l
    cases l with
    | nil => simp [isPreOf]
    | cons b bs =>
      simp only [isPreOf, Bool.and_eq_true, beq_iff_eq, ih, List.cons_append, List.cons.injEq]
      constructor
      · rintro ⟨rfl, t, rfl⟩
        exact ⟨t, rfl, rfl⟩
      · rintro ⟨t, rfl, rfl⟩
        exact ⟨rfl, t, rfl⟩

theorem trimPreL_of_not (p l : List Char) (h : isPreOf p l = false) : trimPreL p l = l := by
  simp [trimPreL, h]

theorem dropWhile_append_last (p : Char → Bool) (l : List Char) (a : Char) (ha : p a = false) :
    (l ++ [a]).dropWhile p = l.dropWhile p ++ [a] := by
  induction l with
  | nil => simp [List.dropWhile_cons, ha]
  | cons c cs ih =>
    by_cases hc : p c
    · simp [List.dropWhile_cons, hc, ih]
    · simp [List.dropWhile_cons, hc]

theorem trimSpaceL_cons (a : Char) (l : List Char) (ha : isSpace a = false) :
    trimSpaceL (a :: l) = a :: (l.reverse.dropWhile isSpace).reverse := by
  unfold trimSpaceL
  rw [List.dropWhile_cons, if_neg (by simp [ha]), List.reverse_cons,
    dropWhile_append_last _ _ _ ha, List.reverse_append]
  rfl

theorem trimSufL_cons_hash (m : List Char) :
    ∃ t, trimSufL ("```".data) ('#' :: m) = '#' :: t := by
  unfold trimSufL trimPreL
  by_cases h : isPreOf (("```".data).reverse) (('#' :: m).reverse)
  · obtain ⟨t', ht⟩ := (isPreOf_iff _ _).1 h
    have hrev : ('#' :: m).reverse = m.reverse ++ ['#'] := by simp
    cases t' with
    | nil =>
      exfalso
      rw [hrev] at ht
      have hl : (m.reverse ++ ['#']).getLast? = some '#' := List.getLast?_concat _
      rw [ht] at hl
      simp at hl
    | cons x xs =>
      have hlen : 3 ≤ m.length := by
        have h' := congrArg List.length ht
        simp only [List.length_reverse, List.length_cons, List.length_append,
          List.length_nil] at h'
        omega
      rw [if_pos h, hrev,
        List.drop_append_of_le_length (by simp only [List.length_reverse]; exact hlen)]
      exact ⟨(m.reverse.drop (("```".data).reverse).length).reverse, by simp⟩
  · rw [if_neg h, List.reverse_reverse]
    exact ⟨m, rfl⟩

theorem isPreOf_backtick_hash (q : List Char) (m : List Char) :
    isPreOf ('`' :: q) ('#' :: m) = false := by
  simp [isPreOf]

theorem cleanContentL_hash (l : List Char) : ∃ t, cleanContentL ('#' :: l) = '#' :: t := by
  unfold cleanContentL
  rw [trimSpaceL_cons _ _ (by decide)]
  rw [show ("```markdown".data) = '`' :: ("``markdown".data) from rfl,
    trimPreL_of_not _ _ (isPreOf_backtick_hash _ _),
    show ("```".data) = '`' :: ("``".data) from rfl,
    trimPreL_of_not _ _ (isPreOf_backtick_hash _ _)]
  exact trimSufL_cons_hash _

theorem errPlaceholder_data (a b : Int) (e : String) :
    ∃ r, (errPlaceholder a b e).data = '#' :: r := by
  refine ⟨("# Error generating section ".data) ++ (toString a).data ++ ("-".data) ++
    (toString b).data ++ ("\n\nAPI Error: ".data) ++ e.data, ?_⟩
  show (("## Error generating section " ++ toString a ++ "-" ++ toString b ++
    "\n\nAPI Error: ") ++ e).data = _
  rw [String.data_append, String.data_append, String.data_append, String.data_append,
    String.data_append]
  rfl

theorem cleanContent_errPlaceholder_ne (a b : Int) (e : String) :
    cleanContent (errPlaceholder a b e) ≠ "" := by
  obtain ⟨r, hr⟩ := errPlaceholder_data a b e
  unfold cleanContent
  rw [hr]
  obtain ⟨t, ht⟩ := cleanContentL_hash r
  rw [ht]
  intro hcon
  have := congrArg String.data hcon
  simp at this

theorem splitFirstSpace_eq_none (l : List Char) : splitFirstSpace l = none ↔ ' ' ∉ l := by
  induction l with
  | nil => simp [splitFirstSpace]
  | cons c cs ih =>
    by_cases hc : c = ' '
    · subst hc
      simp [splitFirstSpace]
    · have hb : (c == ' ') = false := by simpa using hc
      cases h : splitFirstSpace cs with
      | none =>
        rw [show splitFirstSpace (c :: cs) = none by simp [splitFirstSpace, hb, h]]
        have hcs : ' ' ∉ cs := ih.1 h
        constructor
        · intro _ hmem
          rcases List.mem_cons.1 hmem with heq | hmem2
          · exact hc heq.symm
          · exact hcs hmem2
        · intro _
          rfl
      | some pr =>
        rw [show splitFirstSpace (c :: cs) = some (c :: pr.1, pr.2) by
          simp [splitFirstSpace, hb, h]]
        have hcs : ' ' ∈ cs := by
          by_contra hn
          rw [← ih] at hn
          rw [h] at hn
          exact absurd hn (by simp)
        constructor
        · intro hfalse
          exact absurd hfalse (by simp)
        · intro hmem
          exact absurd (List.mem_cons_of_mem c hcs) hmem

/-! ### Helper lemmas for the amended anchor description -/

theorem isSpace_true_iff (c : Char) :
    isSpace c = true ↔
      c = ' ' ∨ c = '\t' ∨ c = '\n' ∨ c = '\x0b' ∨ c = '\x0c' ∨ c = '\r' := by
  simp [isSpace, Bool.or_eq_true, beq_iff_eq, or_assoc]

theorem isSpace_eq_of_allowed (c : Char) (h : isAllowedChar c = true) :
    isSpace c = (c == ' ') := by
  by_cases hsp : isSpace c = true
  · rcases (isSpace_true_iff c).1 hsp with rfl | rfl | rfl | rfl | rfl | rfl
    · rfl
    all_goals exact absurd h (by decide)
  · have h1 : isSpace c = false := by revert hsp; cases isSpace c <;> simp
    have h2 : c ≠ ' ' := by
      rintro rfl
      exact hsp (by decide)
    simp [h1, h2]

theorem dropWhile_congr_mem (p q : Char → Bool) :
    ∀ l : List Char, (∀ c ∈ l, p c = q c) → l.dropWhile p = l.dropWhile q := by
  intro l
  induction l with
  | nil => intro _; rfl
  | cons c cs ih =>
    intro h
    have hc := h c (by simp)
    rw [List.dropWhile_cons, List.dropWhile_cons, hc]
    by_cases hq : q c
    · rw [if_pos hq, if_pos hq, ih fun d hd => h d (by simp [hd])]
    · rw [if_neg hq, if_neg hq]

theorem mem_of_mem_dropEndSpaces (y : List Char) (a : Char) (h : a ∈ dropEndSpaces y) :
    a ∈ y := by
  unfold dropEndSpaces at h
  rw [List.mem_reverse] at h
  have h2 := (List.dropWhile_sublist (l := (y.dropWhile (· == ' ')).reverse) (· == ' ')).mem h
  rw [List.mem_reverse] at h2
  exact (List.dropWhile_sublist (· == ' ')).mem h2

theorem trimSpaceL_eq_dropEndSpaces (y : List Char) (h : ∀ c ∈ y, isAllowedChar c = true) :
    trimSpaceL y = dropEndSpaces y := by
  unfold trimSpaceL dropEndSpaces
  have h1 : y.dropWhile isSpace = y.dropWhile (· == ' ') :=
    dropWhile_congr_mem _ _ y fun c hc => isSpace_eq_of_allowed c (h c hc)
  rw [h1]
  congr 1
  refine dropWhile_congr_mem _ _ _ fun c hc => ?_
  rw [List.mem_reverse] at hc
  exact isSpace_eq_of_allowed c (h c ((List.dropWhile_sublist (· == ' ')).mem hc))

theorem slugPass_eq_spacesToHyphens (y : List Char) (h : ∀ c ∈ y, isAllowedChar c = true) :
    slugPass y = spacesToHyphens y := by
  induction y with
  | nil => rfl
  | cons c cs ih =>
    have hc := h c (List.mem_cons_self c cs)
    have hrest := ih fun d hd => h d (List.mem_cons_of_mem c hd)
    have hc' : ('a' ≤ c ∧ c ≤ 'z') ∨ ('0' ≤ c ∧ c ≤ '9') ∨ c = ' ' := by
      simpa [isAllowedChar, Bool.or_eq_true, Bool.and_eq_true, beq_iff_eq, or_assoc] using hc
    rcases hc' with ⟨h1, h2⟩ | ⟨h1, h2⟩ | rfl
    · have hlowc : c.isLower = true := by
        show (decide ('a' ≤ c) && decide (c ≤ 'z')) = true
        simp [h1, h2]
      have hlow : (c.isLower || c.isDigit) = true := by simp [hlowc]
      have hne : c ≠ ' ' := by
        rintro rfl
        exact absurd h1 (by decide)
      rw [show slugPass (c :: cs) = c :: slugPass cs by simp [slugPass, hlow]]
      rw [show spacesToHyphens (c :: cs) = c :: spacesToHyphens cs by
        simp [spacesToHyphens, hne]]
      rw [hrest]
    · have hdigc : c.isDigit = true := by
        show (decide ('0' ≤ c) && decide (c ≤ '9')) = true
        simp [h1, h2]
      have hlow : (c.isLower || c.isDigit) = true := by simp [hdigc]
      have hne : c ≠ ' ' := by
        rintro rfl
        exact absurd h1 (by decide)
      rw [show slugPass (c :: cs) = c :: slugPass cs by simp [slugPass, hlow]]
      rw [show spacesToHyphens (c :: cs) = c :: spacesToHyphens cs by
        simp [spacesToHyphens, hne]]
      rw [hrest]
    · rw [show slugPass (' ' :: cs) = '-' :: slugPass cs by simp [slugPass]]
      rw [show spacesToHyphens (' ' :: cs) = '-' :: spacesToHyphens cs by
        simp [spacesToHyphens]]
      rw [hrest]

/-! ### Claims C6, C7, C8 -/

/-- C6 counterexample: on the label "1. a  b" the code's anchor is "1-a--b"
(each of the two spaces becomes its own hyphen), while the claim's description
yields "1-a-b"; on "2. c-d" the code strips the hyphen and produces "2-cd",
while the claim's description keeps it and produces "2-c-d". -/
theorem c6_counterexample :
    fullSlugL ("1. a  b".data) = some ("1-a--b".data) ∧
    anchorClaimedL ("1. a  b".data) = some ("1-a-b".data) ∧
    fullSlugL ("2. c-d".data) = some ("2-cd".data) ∧
    anchorClaimedL ("2. c-d".data) = some ("2-c-d".data) ∧
    fullSlugL ("1. a  b".data) ≠ anchorClaimedL ("1. a  b".data) ∧
    fullSlugL ("2. c-d".data) ≠ anchorClaimedL ("2. c-d".data) := by
  exact ⟨by decide, by decide, by decide, by decide, by decide, by decide⟩

/-- C6 (amended): for every label, the anchor is computed by lower-casing the
text part after the first space, stripping every character outside lowercase
a-z, 0-9 and the space character (hyphens and non-space whitespace are
removed), trimming surrounding spaces, replacing each remaining space with
exactly one hyphen (a run of k spaces becomes k hyphens), and prefixing the
first token with one trailing dot removed, joined by a hyphen; labels without
a space get no anchor. -/
theorem c6_anchor_amended : ∀ c : List Char, fullSlugL c = anchorAmendedL c := by
  intro c
  cases h : splitFirstSpace c with
  | none => simp [fullSlugL, anchorAmendedL, h]
  | some pr =>
    have hy : ∀ d ∈ (pr.2.map Char.toLower).filter isAllowedChar, isAllowedChar d = true :=
      fun d hd => (List.mem_filter.1 hd).2
    have h1 : trimSpaceL ((pr.2.map Char.toLower).filter isAllowedChar) =
        dropEndSpaces ((pr.2.map Char.toLower).filter isAllowedChar) :=
      trimSpaceL_eq_dropEndSpaces _ hy
    have h2 : slugPass (dropEndSpaces ((pr.2.map Char.toLower).filter isAllowedChar)) =
        spacesToHyphens (dropEndSpaces ((pr.2.map Char.toLower).filter isAllowedChar)) :=
      slugPass_eq_spacesToHyphens _ fun d hd => hy d (mem_of_mem_dropEndSpaces _ _ hd)
    have key : spacesToHyphens (trimSpaceL (stripDisallowed (lowerL pr.2))) =
        slugPass (dropEndSpaces ((pr.2.map Char.toLower).filter allowedAmended)) := by
      calc spacesToHyphens (trimSpaceL (stripDisallowed (lowerL pr.2)))
          = spacesToHyphens (trimSpaceL ((pr.2.map Char.toLower).filter isAllowedChar)) := rfl
        _ = spacesToHyphens (dropEndSpaces ((pr.2.map Char.toLower).filter isAllowedChar)) := by
            rw [h1]
        _ = slugPass (dropEndSpaces ((pr.2.map Char.toLower).filter isAllowedChar)) := h2.symm
        _ = slugPass (dropEndSpaces ((pr.2.map Char.toLower).filter allowedAmended)) := rfl
    simp only [fullSlugL, anchorAmendedL, h]
    rw [key]

/-- C7 counterexample: the single-item concept list whose label "1.foo" has no
space produces an empty table of contents, so an item is omitted from the ToC
although the claim promises one entry for every item. -/
theorem c7_counterexample :
    tocBody [("1.foo".data)] = [] ∧ ([("1.foo".data)]).length = 1 := by
  exact ⟨by decide, rfl⟩

/-- C7 (amended): the table of contents contains one entry per item whose label
contains a space, in original item order; an item whose label contains no space
is skipped by the continue branch and omitted from the ToC. -/
theorem c7_toc_amended (concepts : List (List Char)) :
    tocBody concepts =
      ((concepts.filterMap tocEntryL).map (fun e => e ++ '\n' :: [])).flatten ∧
    ∀ c : List Char, (tocEntryL c).isSome ↔ ' ' ∈ c := by
  constructor
  · induction concepts with
    | nil => rfl
    | cons c rest ih =>
      rw [List.filterMap_cons]
      cases h : tocEntryL c with
      | none => simpa [tocBody, h] using ih
      | some e => simp [tocBody, h, ih]
  · intro c
    unfold tocEntryL fullSlugL
    cases h : splitFirstSpace c with
    | none =>
      simp only [h, Option.map_none']
      simp only [Option.isSome_none, Bool.false_eq_true, false_iff]
      exact (splitFirstSpace_eq_none c).1 h
    | some pr =>
      simp only [h, Option.map_some']
      simp only [Option.isSome_some, true_iff]
      by_contra hmem
      rw [← splitFirstSpace_eq_none c] at hmem
      rw [h] at hmem
      exact absurd hmem (by simp)

/-- C8: the anchor function is deterministic, and it is injective in the
ordinal component: two labels with the same text part after the first space
but distinct ordinal components (the first token with one trailing dot
removed, exactly the number part the code puts in front of the slug) receive
distinct anchors. -/
theorem c8_anchor_deterministic_injective (l₁ l₂ n₁ n₂ t : List Char)
    (h₁ : splitFirstSpace l₁ = some (n₁, t)) (h₂ : splitFirstSpace l₂ = some (n₂, t))
    (hne : trimSufL (".".data) n₁ ≠ trimSufL (".".data) n₂) :
    (∀ l : List Char, fullSlugL l = fullSlugL l) ∧ fullSlugL l₁ ≠ fullSlugL l₂ := by
  refine ⟨fun _ => rfl, ?_⟩
  unfold fullSlugL
  rw [h₁, h₂]
  intro heq
  simp only [Option.some.injEq] at heq
  have hlen := congrArg List.length heq
  simp only [List.length_append] at hlen
  exact hne (List.append_inj heq (by omega)).1

/-- C8 witness: concrete labels "1. x" and "2. x" share the text part and have
distinct ordinals, hence distinct anchors. -/
theorem c8_witness :
    fullSlugL ("1. x".data) ≠ fullSlugL ("2. x".data) :=
  (c8_anchor_deterministic_injective ("1. x".data) ("2. x".data)
    ("1.".data) ("2.".data) ("x".data) (by decide) (by decide) (by decide)).2

/-! ### Trim idempotence and rendering helpers -/

theorem dropWhile_head_false (p : Char → Bool) :
    ∀ (l : List Char) (a : Char) (t : List Char), l.dropWhile p = a :: t → p a = false := by
  intro l
  induction l with
  | nil =>
    intro a t h
    simp at h
  | cons c cs ih =>
    intro a t h
    rw [List.dropWhile_cons] at h
    by_cases hc : p c
    · rw [if_pos hc] at h
      exact ih a t h
    · rw [if_neg hc] at h
      injection h with h1 h2
      subst h1
      simpa using hc

theorem dropWhile_idem (p : Char → Bool) (l : List Char) :
    (l.dropWhile p).dropWhile p = l.dropWhile p := by
  cases h : l.dropWhile p with
  | nil => rfl
  | cons a t =>
    rw [List.dropWhile_cons, if_neg]
    simp [dropWhile_head_false p l a t h]

theorem dropWhile_trimSpaceL (l : List Char) :
    (trimSpaceL l).dropWhile isSpace = trimSpaceL l := by
  unfold trimSpaceL
  cases hy : l.dropWhile isSpace with
  | nil => simp
  | cons a t =>
    have ha : isSpace a = false := dropWhile_head_false _ l a t hy
    rw [List.reverse_cons, dropWhile_append_last _ _ _ ha, List.reverse_append]
    simp only [List.reverse_singleton, List.singleton_append]
    rw [List.dropWhile_cons, if_neg (by simp [ha])]

theorem trimSpaceL_trail (l : List Char) :
    ((trimSpaceL l).reverse.dropWhile isSpace).reverse = trimSpaceL l := by
  unfold trimSpaceL
  rw [List.reverse_reverse, dropWhile_idem]

theorem trimSpaceL_idem (l : List Char) : trimSpaceL (trimSpaceL l) = trimSpaceL l := by
  rw [show trimSpaceL (trimSpaceL l) =
    (((trimSpaceL l).dropWhile isSpace).reverse.dropWhile isSpace).reverse from rfl]
  rw [dropWhile_trimSpaceL]
  exact trimSpaceL_trail l

theorem renderBody_replicate (n : Nat) : renderBody (List.replicate n "") = [] := by
  induction n with
  | zero => rfl
  | succ k ih =>
    rw [List.replicate_succ]
    rw [show renderBody ("" :: List.replicate k "") = renderBody (List.replicate k "") by
      simp [renderBody]]
    exact ih

/-! ### Claims C10 and C3 -/

/-- C10: every string kept by the concept-list filtering is a nonempty trimmed
line whose first character is an ASCII digit or which starts with a hyphen;
and any other line of the response is silently discarded, shown concretely on
a response whose first line matches neither shape, so the number of items can
fall short of the requested total. -/
theorem c10_concept_list_filter :
    (∀ (resp l : List Char), l ∈ generateConceptList resp →
      l ≠ [] ∧ trimSpaceL l = l ∧
        ∃ c t, l = c :: t ∧ (unicodeIsDigit c = true ∨ c = '-')) ∧
    generateConceptList ("Intro line\n1. a".data) = [("1. a".data)] := by
  constructor
  · intro resp l hl
    unfold generateConceptList at hl
    obtain ⟨hmem1, hkeep⟩ := List.mem_filter.1 hl
    obtain ⟨raw, hraw, rfl⟩ := List.mem_map.1 hmem1
    refine ⟨?_, trimSpaceL_idem raw, ?_⟩
    · intro hnil
      rw [hnil] at hkeep
      exact absurd hkeep (by decide)
    · cases h : trimSpaceL raw with
      | nil =>
        rw [h] at hkeep
        exact absurd hkeep (by decide)
      | cons c t =>
        rw [h] at hkeep
        refine ⟨c, t, rfl, ?_⟩
        unfold keepLine at hkeep
        have hkeep' : unicodeIsDigit c = true ∨ isPreOf ("-".data) (c :: t) = true := by
          simpa using hkeep
        rcases hkeep' with hd | hp
        · exact Or.inl hd
        · right
          have : ('-' == c) = true := by
            revert hp
            simp [isPreOf]
          exact (beq_iff_eq.1 this).symm
  · decide

/-- C10 witness: the kept line "1. a" of the concrete response is nonempty,
trimmed, and starts with a digit. -/
theorem c10_witness :
    ("1. a".data) ≠ [] ∧ trimSpaceL ("1. a".data) = ("1. a".data) ∧
      ∃ c t, ("1. a".data) = c :: t ∧ (unicodeIsDigit c = true ∨ c = '-') :=
  c10_concept_list_filter.1 ("Intro line\n1. a".data) ("1. a".data) (by decide)

/-- C3 counterexample: with chunk size 1 and thread count 0 on a one-item
list, no worker ever runs, yet the pipeline does not fail: it completes and
renders a document whose body has no chunk blocks, instead of halting with a
configuration error as the claim requires for a non-positive thread count. -/
theorem c3_counterexample :
    processChunksExec ⟨1, 0⟩ (fun _ => Except.ok "x") ["1. a"] [] = some [] := by
  decide

/-- C3 (amended): the run halts with an error before any chunk work only when
the concept list is empty; the chunk size and thread count are not validated:
chunk size zero makes the chunk-count computation divide by zero (a runtime
panic, not a configuration error) before any job is built, and with a
non-positive thread count the only admissible schedule is the empty one, under
which the pipeline completes normally, leaves every slot empty, and renders a
document with no chunk blocks and no error. -/
theorem c3_amended :
    (∀ concepts : List String, concepts.length = 0 →
      runGate concepts = Except.error "No concepts were generated. Exiting.") ∧
    (∀ (cfg : Config) (gen : Nat → Except String String) (concepts : List String)
      (sched : List (Nat × List String)), cfg.chunkSize = 0 →
      processChunksExec cfg gen concepts sched = none) ∧
    (∀ (cfg : Config) (gen : Nat → Except String String) (concepts : List String)
      (jobs sched : List (Nat × List String)), cfg.threads ≤ 0 → 1 ≤ cfg.chunkSize →
      jobsOf cfg concepts = some jobs → ValidSched cfg jobs sched →
      sched = [] ∧ processChunksExec cfg gen concepts sched = some []) := by
  refine ⟨?_, ?_, ?_⟩
  · intro concepts h
    unfold runGate
    rw [if_pos h]
  · intro cfg gen concepts sched h
    unfold processChunksExec
    rw [if_pos h]
  · intro cfg gen concepts jobs sched ht hc hjobs hsched
    have hnot : ¬ 1 ≤ cfg.threads := by omega
    have hsched' : sched = [] := by
      unfold ValidSched at hsched
      rwa [if_neg hnot] at hsched
    refine ⟨hsched', ?_⟩
    subst hsched'
    unfold processChunksExec
    rw [if_neg (by omega), if_neg ?hpos]
    case hpos =>
      simp only [not_lt]
      exact Int.tdiv_nonneg (by have := Int.natCast_nonneg concepts.length; omega) (by omega)
    rw [hjobs]
    show some (renderBody (poolRun cfg gen [] (numChunksNat cfg concepts))) = some []
    rw [show poolRun cfg gen [] (numChunksNat cfg concepts) =
      List.replicate (numChunksNat cfg concepts) "" from rfl]
    rw [renderBody_replicate]

/-- C3 witness: concrete instances of the three amended behaviours. -/
theorem c3_amended_witness :
    runGate [] = Except.error "No concepts were generated. Exiting." ∧
    processChunksExec ⟨0, 1⟩ (fun _ => Except.ok "x") ["1. a"] [] = none ∧
    (([] : List (Nat × List String)) = [] ∧
      processChunksExec ⟨1, -2⟩ (fun _ => Except.ok "x") ["1. a"] [] = some []) :=
  ⟨c3_amended.1 [] rfl,
   c3_amended.2.1 ⟨0, 1⟩ (fun _ => Except.ok "x") ["1. a"] [] rfl,
   c3_amended.2.2 ⟨1, -2⟩ (fun _ => Except.ok "x") ["1. a"] [(0, ["1. a"])] []
     (by decide) (by decide) (by decide)
     (by unfold ValidSched; rw [if_neg (by decide)])⟩

/-! ### Arithmetic bridge between the Go Int chunk arithmetic and Nat -/

theorem numChunksNat_eq (c : Nat) (hc : 1 ≤ c) (t : Int) (concepts : List String) :
    numChunksNat ⟨(c : Int), t⟩ concepts = (concepts.length + c - 1) / c := by
  unfold numChunksNat numChunksInt
  rw [show ((⟨(c : Int), t⟩ : Config).chunkSize) = (c : Int) from rfl]
  rw [show ((concepts.length : Int) + (c : Int) - 1) =
      (((concepts.length + c - 1 : Nat)) : Int) by
    rw [Nat.cast_sub (by omega : 1 ≤ concepts.length + c)]
    push_cast
    ring]
  rw [← Int.ofNat_tdiv]
  exact Int.toNat_natCast _

theorem chunkItems_eq (c : Nat) (hc : 1 ≤ c) (t : Int) (concepts : List String) (i : Nat)
    (hi : i < (concepts.length + c - 1) / c) :
    chunkItems ⟨(c : Int), t⟩ concepts i = some ((concepts.drop (i * c)).take c) := by
  have e1 : (i + 1) * c ≤ ((concepts.length + c - 1) / c) * c :=
    Nat.mul_le_mul_right c (by omega)
  have e2 : ((concepts.length + c - 1) / c) * c ≤ concepts.length + c - 1 :=
    Nat.div_mul_le_self _ _
  have e3 : (i + 1) * c = i * c + c := by ring
  have hlt : i * c < concepts.length := by omega
  unfold chunkItems goSlice
  rw [show ((⟨(c : Int), t⟩ : Config).chunkSize) = (c : Int) from rfl]
  have hcast : (i : Int) * (c : Int) = ((i * c : Nat) : Int) := by push_cast; ring
  rw [hcast]
  by_cases hcl : ((i * c : Nat) : Int) + (c : Int) > (concepts.length : Int)
  · rw [if_pos hcl, if_pos ?hcond1]
    case hcond1 => exact ⟨Int.natCast_nonneg _, by omega, le_refl _⟩
    congr 1
    rw [Int.toNat_natCast]
    rw [show (((concepts.length : Int)) - ((i * c : Nat) : Int)).toNat =
        concepts.length - i * c by omega]
    apply (List.take_eq_take).2
    rw [List.length_drop]
    rw [Nat.min_self, Nat.min_eq_right (by omega)]
  · rw [if_neg hcl, if_pos ?hcond2]
    case hcond2 => exact ⟨Int.natCast_nonneg _, by omega, by omega⟩
    congr 1
    rw [Int.toNat_natCast]
    rw [show ((((i * c : Nat) : Int)) + (c : Int) - ((i * c : Nat) : Int)).toNat = c by omega]

theorem collectJobs_eq_map (g : Nat → List String) :
    ∀ (l : List Nat) (f : Nat → Option (List String)),
      (∀ i ∈ l, f i = some (g i)) →
      collectJobs l f = some (l.map fun i => (i, g i)) := by
  intro l
  induction l with
  | nil =>
    intro f _
    rfl
  | cons i rest ih =>
    intro f h
    have hi := h i (List.mem_cons_self i rest)
    have hrest := ih f fun j hj => h j (List.mem_cons_of_mem i hj)
    unfold collectJobs
    rw [hi, hrest]
    rfl

theorem jobsOf_eq (c : Nat) (hc : 1 ≤ c) (t : Int) (concepts : List String) :
    jobsOf ⟨(c : Int), t⟩ concepts =
      some ((List.range ((concepts.length + c - 1) / c)).map
        fun i => (i, (concepts.drop (i * c)).take c)) := by
  unfold jobsOf
  rw [numChunksNat_eq c hc]
  exact collectJobs_eq_map _ _ _ fun i hi =>
    chunkItems_eq c hc t concepts i (List.mem_range.1 hi)

/-! ### The write-once fold over the results slice -/

theorem foldl_set_getElem (cfg : Config) (gen : Nat → Except String String) :
    ∀ (sched : List (Nat × List String)) (init : List String),
      (sched.map Prod.fst).Nodup → ∀ m : Nat,
      (sched.foldl (fun rs j => rs.set j.1 (workerContent cfg gen j.1 j.2)) init)[m]? =
        match sched.find? (fun j => j.1 == m) with
        | some j => if m < init.length then some (workerContent cfg gen j.1 j.2) else none
        | none => init[m]? := by
  intro sched
  induction sched with
  | nil =>
    intro init _ m
    rfl
  | cons a rest ih =>
    intro init hnd m
    have hnd' : (rest.map Prod.fst).Nodup := by
      rw [List.map_cons] at hnd
      exact (List.nodup_cons.1 hnd).2
    have hnotmem : a.1 ∉ rest.map Prod.fst := by
      rw [List.map_cons] at hnd
      exact (List.nodup_cons.1 hnd).1
    rw [List.foldl_cons, ih (init.set a.1 (workerContent cfg gen a.1 a.2)) hnd' m]
    cases hf : rest.find? (fun j => j.1 == m) with
    | none =>
      simp only [hf]
      by_cases ham : a.1 = m
      · subst ham
        rw [List.find?_cons]
        simp only [beq_self_eq_true]
        rw [List.getElem?_set_self']
        by_cases hlt : a.1 < init.length
        · rw [List.getElem?_eq_getElem hlt, if_pos hlt]
          rfl
        · rw [List.getElem?_eq_none (by omega), if_neg hlt]
          rfl
      · rw [List.getElem?_set_ne ham]
        rw [List.find?_cons]
        simp only [show (a.1 == m) = false by simp [ham], hf]
    | some j =>
      simp only [hf]
      have hj1 : j.1 = m := by simpa using List.find?_some hf
      have hjmem : j ∈ rest := List.mem_of_find?_eq_some hf
      have ham : a.1 ≠ m := by
        intro h
        apply hnotmem
        rw [h]
        exact List.mem_map.2 ⟨j, hjmem, hj1⟩
      rw [List.length_set]
      rw [List.find?_cons]
      simp only [show (a.1 == m) = false by simp [ham], hf]

/-- With at least one worker, the results slice after all writes is the same
whatever the completion order: every permutation of the job list yields the
slot contents in chunk-index order. -/
theorem poolRun_perm (cfg : Config) (gen : Nat → Except String String)
    (nc : Nat) (itemsf : Nat → List String) (sched : List (Nat × List String))
    (hperm : sched.Perm ((List.range nc).map fun i => (i, itemsf i))) :
    poolRun cfg gen sched nc =
      (List.range nc).map fun i => workerContent cfg gen i (itemsf i) := by
  have hkeys : (sched.map Prod.fst).Nodup := by
    have h1 := hperm.map Prod.fst
    have h2 : ((List.range nc).map fun i => (i, itemsf i)).map Prod.fst = List.range nc := by
      rw [List.map_map]
      exact List.map_id _
    rw [h2] at h1
    exact (h1.nodup_iff).2 (List.nodup_range nc)
  apply List.ext_getElem?
  intro m
  unfold poolRun
  rw [foldl_set_getElem cfg gen sched (List.replicate nc "") hkeys m]
  by_cases hm : m < nc
  · have hmem : (m, itemsf m) ∈ sched :=
      hperm.mem_iff.2 (List.mem_map.2 ⟨m, List.mem_range.2 hm, rfl⟩)
    cases hf : sched.find? (fun j => j.1 == m) with
    | none =>
      exfalso
      have := List.find?_eq_none.1 hf (m, itemsf m) hmem
      simp at this
    | some j =>
      have hj1 : j.1 = m := by simpa using List.find?_some hf
      have hjmem : j ∈ sched := List.mem_of_find?_eq_some hf
      obtain ⟨i, hi, hij⟩ := List.mem_map.1 (hperm.mem_iff.1 hjmem)
      have him : i = m := by
        rw [← hj1, ← hij]
      subst him
      rw [← hij]
      simp only [List.length_replicate, if_pos hm]
      rw [List.getElem?_map, List.getElem?_range hm]
      rfl
  · cases hf : sched.find? (fun j => j.1 == m) with
    | none =>
      simp only [hf]
      rw [List.getElem?_replicate, if_neg hm]
      rw [List.getElem?_eq_none (by rw [List.length_map, List.length_range]; omega)]
    | some j =>
      exfalso
      have hjmem : j ∈ sched := List.mem_of_find?_eq_some hf
      have hj1 : j.1 = m := by simpa using List.find?_some hf
      obtain ⟨i, hi, hij⟩ := List.mem_map.1 (hperm.mem_iff.1 hjmem)
      rw [← hij] at hj1
      simp at hj1
      exact hm (hj1 ▸ List.mem_range.1 hi)

/-- Master lemma: under a valid schedule with at least one worker and a
positive chunk size, processChunks succeeds and renders the slot contents in
chunk-index order, fully determined by the job list. -/
theorem processChunksExec_eq_canonical (c : Nat) (t : Int)
    (gen : Nat → Except String String) (concepts : List String)
    (jobs sched : List (Nat × List String))
    (hc : 1 ≤ c) (ht : 1 ≤ t)
    (hjobs : jobsOf ⟨(c : Int), t⟩ concepts = some jobs)
    (hsched : ValidSched ⟨(c : Int), t⟩ jobs sched) :
    processChunksExec ⟨(c : Int), t⟩ gen concepts sched =
      some (renderBody (canonicalResults ⟨(c : Int), t⟩ gen jobs)) := by
  have hj := jobsOf_eq c hc t concepts
  rw [hjobs] at hj
  have hjobs' : jobs = (List.range ((concepts.length + c - 1) / c)).map
      fun i => (i, (concepts.drop (i * c)).take c) := by
    injection hj
  have hperm : sched.Perm jobs := by
    unfold ValidSched at hsched
    rwa [if_pos (show (1 : Int) ≤ (⟨(c : Int), t⟩ : Config).threads from ht)] at hsched
  have hperm' : sched.Perm ((List.range ((concepts.length + c - 1) / c)).map
      fun i => (i, (concepts.drop (i * c)).take c)) := hjobs' ▸ hperm
  unfold processChunksExec
  rw [if_neg (show ¬((⟨(c : Int), t⟩ : Config).chunkSize = 0) by
    show ¬((c : Int) = 0)
    omega)]
  rw [if_neg (show ¬(numChunksInt ⟨(c : Int), t⟩ concepts.length < 0) by
    unfold numChunksInt
    show ¬(((concepts.length : Int) + (c : Int) - 1).tdiv (c : Int) < 0)
    simp only [not_lt]
    exact Int.tdiv_nonneg (by omega) (by omega))]
  rw [hjobs]
  show some (renderBody (poolRun ⟨(c : Int), t⟩ gen sched
    (numChunksNat ⟨(c : Int), t⟩ concepts))) = _
  rw [numChunksNat_eq c hc]
  rw [poolRun_perm ⟨(c : Int), t⟩ gen _ _ sched hperm']
  rw [hjobs']
  unfold canonicalResults
  rw [List.map_map]
  rfl

theorem renderBody_eq (rs : List String) :
    renderBody rs = (rs.filter (fun s => !(s == ""))).map (fun s => s ++ "\n" ++ "\n---\n") := by
  induction rs with
  | nil => rfl
  | cons content rest ih =>
    by_cases h : content == ""
    · rw [show renderBody (content :: rest) = renderBody rest by simp [renderBody, h]]
      rw [List.filter_cons, if_neg (by simp [h]), ih]
    · rw [show renderBody (content :: rest) =
        (content ++ "\n" ++ "\n---\n") :: renderBody rest by simp [renderBody, h]]
      rw [List.filter_cons, if_pos (by simp [h]), List.map_cons, ih]

theorem validSched_perm (cfg : Config) (jobs sched : List (Nat × List String))
    (ht : 1 ≤ cfg.threads) (hsched : ValidSched cfg jobs sched) : sched.Perm jobs := by
  unfold ValidSched at hsched
  rwa [if_pos ht] at hsched

theorem jobs_keys (c : Nat) (hc : 1 ≤ c) (t : Int) (concepts : List String)
    (jobs : List (Nat × List String))
    (hjobs : jobsOf ⟨(c : Int), t⟩ concepts = some jobs) :
    jobs.map Prod.fst = List.range ((concepts.length + c - 1) / c) := by
  have hj := jobsOf_eq c hc t concepts
  rw [hjobs] at hj
  have hjobs' : jobs = (List.range ((concepts.length + c - 1) / c)).map
      fun i => (i, (concepts.drop (i * c)).take c) := by
    injection hj
  rw [hjobs', List.map_map]
  exact List.map_id _

/-! ### Claims C1, C2, C9, C5 -/

/-- C1: for any two admissible completion orders of the worker pool (any
permutations of the job list, with at least one worker and a positive chunk
size), the final document is identical, and the body equals the rendering of
the slot contents taken in strictly increasing chunk-index order (the job
list is index-ordered by construction). -/
theorem c1_order_independence (c : Nat) (t : Int) (subject : String)
    (gen : Nat → Except String String) (concepts : List String)
    (jobs sched₁ sched₂ : List (Nat × List String))
    (hc : 1 ≤ c) (ht : 1 ≤ t)
    (hjobs : jobsOf ⟨(c : Int), t⟩ concepts = some jobs)
    (h₁ : ValidSched ⟨(c : Int), t⟩ jobs sched₁)
    (h₂ : ValidSched ⟨(c : Int), t⟩ jobs sched₂) :
    document ⟨(c : Int), t⟩ subject gen concepts sched₁ =
      document ⟨(c : Int), t⟩ subject gen concepts sched₂ ∧
    processChunksExec ⟨(c : Int), t⟩ gen concepts sched₁ =
      some (renderBody (canonicalResults ⟨(c : Int), t⟩ gen jobs)) := by
  have e₁ := processChunksExec_eq_canonical c t gen concepts jobs sched₁ hc ht hjobs h₁
  have e₂ := processChunksExec_eq_canonical c t gen concepts jobs sched₂ hc ht hjobs h₂
  refine ⟨?_, e₁⟩
  unfold document
  rw [e₁, e₂]

/-- C1 witness: a three-item run with chunk size 2 and two workers, comparing
the reversed completion order against the index order. -/
theorem c1_witness :
    document ⟨((2 : Nat) : Int), 2⟩ "s" (fun i => Except.ok (toString i)) ["a", "b", "c"]
        [(1, ["c"]), (0, ["a", "b"])] =
      document ⟨((2 : Nat) : Int), 2⟩ "s" (fun i => Except.ok (toString i)) ["a", "b", "c"]
        [(0, ["a", "b"]), (1, ["c"])] ∧
    processChunksExec ⟨((2 : Nat) : Int), 2⟩ (fun i => Except.ok (toString i)) ["a", "b", "c"]
        [(1, ["c"]), (0, ["a", "b"])] =
      some (renderBody (canonicalResults ⟨((2 : Nat) : Int), 2⟩
        (fun i => Except.ok (toString i)) [(0, ["a", "b"]), (1, ["c"])])) :=
  c1_order_independence 2 2 "s" (fun i => Except.ok (toString i)) ["a", "b", "c"]
    [(0, ["a", "b"]), (1, ["c"])] [(1, ["c"]), (0, ["a", "b"])] [(0, ["a", "b"]), (1, ["c"])]
    (by decide) (by decide) (by decide)
    (by unfold ValidSched; rw [if_pos (by decide)]; decide)
    (by unfold ValidSched; rw [if_pos (by decide)])

/-- C2 counterexample: a one-chunk run whose generation call succeeds with the
empty string renders a document with no block at all for that chunk — the
chunk is silently dropped, contradicting the claim that every chunk gets a
block even when its result text is empty. -/
theorem c2_counterexample :
    jobsOf ⟨1, 1⟩ ["1. a"] = some [(0, ["1. a"])] ∧
    processChunksExec ⟨1, 1⟩ (fun _ => Except.ok "") ["1. a"] [(0, ["1. a"])] = some [] := by
  exact ⟨by decide, by decide⟩

/-- C2 (amended): the rendered body contains exactly one block for every chunk
whose cleaned result text is nonempty, in chunk-index order; a chunk whose
cleaned result text is empty is silently dropped with no placeholder; a chunk
whose generation call failed is never dropped, because its failure placeholder
survives cleanup as nonempty text. -/
theorem c2_blocks_amended (c : Nat) (t : Int) (gen : Nat → Except String String)
    (concepts : List String) (jobs sched : List (Nat × List String))
    (hc : 1 ≤ c) (ht : 1 ≤ t)
    (hjobs : jobsOf ⟨(c : Int), t⟩ concepts = some jobs)
    (hsched : ValidSched ⟨(c : Int), t⟩ jobs sched) :
    processChunksExec ⟨(c : Int), t⟩ gen concepts sched =
      some (((canonicalResults ⟨(c : Int), t⟩ gen jobs).filter
        (fun s => !(s == ""))).map (fun s => s ++ "\n" ++ "\n---\n")) ∧
    ∀ k items e, (k, items) ∈ jobs → gen k = Except.error e →
      workerContent ⟨(c : Int), t⟩ gen k items ≠ "" := by
  constructor
  · rw [processChunksExec_eq_canonical c t gen concepts jobs sched hc ht hjobs hsched]
    rw [renderBody_eq]
  · intro k items e _ he
    rw [show workerContent ⟨(c : Int), t⟩ gen k items =
        cleanContent (errPlaceholder ((k : Int) * (c : Int) + 1)
          ((k : Int) * (c : Int) + items.length) e) by
      unfold workerContent
      rw [he]]
    exact cleanContent_errPlaceholder_ne _ _ _

/-- C2 witness: a failing one-chunk run, whose placeholder is nonempty. -/
theorem c2_witness :
    processChunksExec ⟨((1 : Nat) : Int), 1⟩ (fun _ => Except.error "boom") ["x"]
        [(0, ["x"])] =
      some (((canonicalResults ⟨((1 : Nat) : Int), 1⟩ (fun _ => Except.error "boom")
        [(0, ["x"])]).filter (fun s => !(s == ""))).map (fun s => s ++ "\n" ++ "\n---\n")) ∧
    workerContent ⟨((1 : Nat) : Int), 1⟩ (fun _ => Except.error "boom") 0 ["x"] ≠ "" := by
  have h := c2_blocks_amended 1 1 (fun _ => Except.error "boom") ["x"]
    [(0, ["x"])] [(0, ["x"])] (by decide) (by decide) (by decide)
    (by unfold ValidSched; rw [if_pos (by decide)])
  exact ⟨h.1, h.2 0 ["x"] "boom" (by decide) rfl⟩

/-- C9: under a valid schedule each chunk index receives exactly one write
(the schedule contains each index exactly once), and when the join barrier
completes the results slice read by the renderer has exactly numChunks
entries, the k-th holding the single result recorded for chunk k. -/
theorem c9_slots_write_once (c : Nat) (t : Int) (gen : Nat → Except String String)
    (concepts : List String) (jobs sched : List (Nat × List String))
    (hc : 1 ≤ c) (ht : 1 ≤ t)
    (hjobs : jobsOf ⟨(c : Int), t⟩ concepts = some jobs)
    (hsched : ValidSched ⟨(c : Int), t⟩ jobs sched) :
    (∀ k, k < numChunksNat ⟨(c : Int), t⟩ concepts →
      List.count k (sched.map Prod.fst) = 1) ∧
    (poolRun ⟨(c : Int), t⟩ gen sched (numChunksNat ⟨(c : Int), t⟩ concepts)).length =
      numChunksNat ⟨(c : Int), t⟩ concepts ∧
    (∀ k, k < numChunksNat ⟨(c : Int), t⟩ concepts →
      (poolRun ⟨(c : Int), t⟩ gen sched (numChunksNat ⟨(c : Int), t⟩ concepts))[k]? =
        some (workerContent ⟨(c : Int), t⟩ gen k ((concepts.drop (k * c)).take c))) ∧
    processChunksExec ⟨(c : Int), t⟩ gen concepts sched =
      some (renderBody (poolRun ⟨(c : Int), t⟩ gen sched
        (numChunksNat ⟨(c : Int), t⟩ concepts))) := by
  have hj := jobsOf_eq c hc t concepts
  rw [hjobs] at hj
  have hjobs' : jobs = (List.range ((concepts.length + c - 1) / c)).map
      fun i => (i, (concepts.drop (i * c)).take c) := by
    injection hj
  have hperm := validSched_perm ⟨(c : Int), t⟩ jobs sched ht hsched
  have hperm' : sched.Perm ((List.range ((concepts.length + c - 1) / c)).map
      fun i => (i, (concepts.drop (i * c)).take c)) := hjobs' ▸ hperm
  have hpool := poolRun_perm ⟨(c : Int), t⟩ gen ((concepts.length + c - 1) / c)
    (fun i => (concepts.drop (i * c)).take c) sched hperm'
  refine ⟨?_, ?_, ?_, ?_⟩
  · intro k hk
    rw [numChunksNat_eq c hc] at hk
    have hkeys : (sched.map Prod.fst).Perm (List.range ((concepts.length + c - 1) / c)) := by
      have := hperm.map Prod.fst
      rwa [jobs_keys c hc t concepts jobs hjobs] at this
    rw [hkeys.count_eq]
    exact List.count_eq_one_of_mem (List.nodup_range _) (List.mem_range.2 hk)
  · rw [numChunksNat_eq c hc, hpool, List.length_map, List.length_range]
  · intro k hk
    rw [numChunksNat_eq c hc] at hk ⊢
    rw [hpool, List.getElem?_map, List.getElem?_range hk]
    rfl
  · have hexec := processChunksExec_eq_canonical c t gen concepts jobs sched hc ht hjobs hsched
    rw [hexec, numChunksNat_eq c hc, hpool, hjobs']
    unfold canonicalResults
    rw [List.map_map]
    rfl

/-- C9 witness: a concrete two-chunk pool execution in reversed order. -/
theorem c9_witness :
    (∀ k, k < numChunksNat ⟨((2 : Nat) : Int), 1⟩ ["a", "b", "c"] →
      List.count k (([(1, ["c"]), (0, ["a", "b"])].map Prod.fst)) = 1) ∧
    (poolRun ⟨((2 : Nat) : Int), 1⟩ (fun _ => Except.ok "r") [(1, ["c"]), (0, ["a", "b"])]
      (numChunksNat ⟨((2 : Nat) : Int), 1⟩ ["a", "b", "c"])).length =
      numChunksNat ⟨((2 : Nat) : Int), 1⟩ ["a", "b", "c"] ∧
    (∀ k, k < numChunksNat ⟨((2 : Nat) : Int), 1⟩ ["a", "b", "c"] →
      (poolRun ⟨((2 : Nat) : Int), 1⟩ (fun _ => Except.ok "r") [(1, ["c"]), (0, ["a", "b"])]
        (numChunksNat ⟨((2 : Nat) : Int), 1⟩ ["a", "b", "c"]))[k]? =
        some (workerContent ⟨((2 : Nat) : Int), 1⟩ (fun _ => Except.ok "r") k
          ((["a", "b", "c"].drop (k * 2)).take 2))) ∧
    processChunksExec ⟨((2 : Nat) : Int), 1⟩ (fun _ => Except.ok "r") ["a", "b", "c"]
        [(1, ["c"]), (0, ["a", "b"])] =
      some (renderBody (poolRun ⟨((2 : Nat) : Int), 1⟩ (fun _ => Except.ok "r")
        [(1, ["c"]), (0, ["a", "b"])]
        (numChunksNat ⟨((2 : Nat) : Int), 1⟩ ["a", "b", "c"]))) :=
  c9_slots_write_once 2 1 (fun _ => Except.ok "r") ["a", "b", "c"]
    [(0, ["a", "b"]), (1, ["c"])] [(1, ["c"]), (0, ["a", "b"])]
    (by decide) (by decide) (by decide)
    (by unfold ValidSched; rw [if_pos (by decide)]; decide)

/-- C5: if chunk k's generation call fails, its slot holds exactly the failure
placeholder naming the chunk's one-based start ordinal, its end ordinal and
the failure reason; the placeholder is nonempty, so the rendered body contains
its block, and the body is rendered in chunk-index order; and the result of
every other chunk is unchanged by how chunk k's call turned out. -/
theorem c5_failure_isolation (c : Nat) (t : Int) (gen gen₂ : Nat → Except String String)
    (concepts : List String) (jobs sched : List (Nat × List String))
    (k : Nat) (items : List String) (e : String)
    (hc : 1 ≤ c) (ht : 1 ≤ t)
    (hjobs : jobsOf ⟨(c : Int), t⟩ concepts = some jobs)
    (hsched : ValidSched ⟨(c : Int), t⟩ jobs sched)
    (hk : (k, items) ∈ jobs) (he : gen k = Except.error e)
    (hgen₂ : ∀ j, j ≠ k → gen₂ j = gen j) :
    workerContent ⟨(c : Int), t⟩ gen k items =
      cleanContent (errPlaceholder ((k : Int) * (c : Int) + 1)
        ((k : Int) * (c : Int) + items.length) e) ∧
    workerContent ⟨(c : Int), t⟩ gen k items ≠ "" ∧
    processChunksExec ⟨(c : Int), t⟩ gen concepts sched =
      some (renderBody (canonicalResults ⟨(c : Int), t⟩ gen jobs)) ∧
    (workerContent ⟨(c : Int), t⟩ gen k items ++ "\n" ++ "\n---\n") ∈
      renderBody (canonicalResults ⟨(c : Int), t⟩ gen jobs) ∧
    ∀ j its, (j, its) ∈ jobs → j ≠ k →
      workerContent ⟨(c : Int), t⟩ gen₂ j its = workerContent ⟨(c : Int), t⟩ gen j its := by
  have hwc : workerContent ⟨(c : Int), t⟩ gen k items =
      cleanContent (errPlaceholder ((k : Int) * (c : Int) + 1)
        ((k : Int) * (c : Int) + items.length) e) := by
    unfold workerContent
    rw [he]
  have hne : workerContent ⟨(c : Int), t⟩ gen k items ≠ "" := by
    rw [hwc]
    exact cleanContent_errPlaceholder_ne _ _ _
  refine ⟨hwc, hne, processChunksExec_eq_canonical c t gen concepts jobs sched hc ht hjobs hsched,
    ?_, ?_⟩
  · rw [renderBody_eq]
    refine List.mem_map.2 ⟨workerContent ⟨(c : Int), t⟩ gen k items, ?_, rfl⟩
    refine List.mem_filter.2 ⟨?_, by simp [hne]⟩
    exact List.mem_map.2 ⟨(k, items), hk, rfl⟩
  · intro j its _ hjk
    unfold workerContent
    rw [hgen₂ j hjk]

/-- C5 witness: chunk 1 of a two-chunk run fails with reason "boom"; its
placeholder block is present, and chunk 0's result is unchanged when chunk 1's
outcome is replaced. -/
theorem c5_witness :
    workerContent ⟨((2 : Nat) : Int), 1⟩
        (fun i => if i = 1 then Except.error "boom" else Except.ok "ok") 1 ["c"] =
      cleanContent (errPlaceholder ((1 : Int) * ((2 : Nat) : Int) + 1)
        ((1 : Int) * ((2 : Nat) : Int) + (["c"] : List String).length) "boom") ∧
    workerContent ⟨((2 : Nat) : Int), 1⟩
        (fun i => if i = 1 then Except.error "boom" else Except.ok "ok") 1 ["c"] ≠ "" ∧
    processChunksExec ⟨((2 : Nat) : Int), 1⟩
        (fun i => if i = 1 then Except.error "boom" else Except.ok "ok") ["a", "b", "c"]
        [(1, ["c"]), (0, ["a", "b"])] =
      some (renderBody (canonicalResults ⟨((2 : Nat) : Int), 1⟩
        (fun i => if i = 1 then Except.error "boom" else Except.ok "ok")
        [(0, ["a", "b"]), (1, ["c"])])) ∧
    (workerContent ⟨((2 : Nat) : Int), 1⟩
        (fun i => if i = 1 then Except.error "boom" else Except.ok "ok") 1 ["c"] ++
      "\n" ++ "\n---\n") ∈
      renderBody (canonicalResults ⟨((2 : Nat) : Int), 1⟩
        (fun i => if i = 1 then Except.error "boom" else Except.ok "ok")
        [(0, ["a", "b"]), (1, ["c"])]) ∧
    workerContent ⟨((2 : Nat) : Int), 1⟩ (fun _ => Except.ok "ok") 0 ["a", "b"] =
      workerContent ⟨((2 : Nat) : Int), 1⟩
        (fun i => if i = 1 then Except.error "boom" else Except.ok "ok") 0 ["a", "b"] := by
  have h := c5_failure_isolation 2 1
    (fun i => if i = 1 then Except.error "boom" else Except.ok "ok")
    (fun _ => Except.ok "ok") ["a", "b", "c"]
    [(0, ["a", "b"]), (1, ["c"])] [(1, ["c"]), (0, ["a", "b"])]
    1 ["c"] "boom" (by decide) (by decide) (by decide)
    (by unfold ValidSched; rw [if_pos (by decide)]; decide)
    (by decide) rfl
    (fun j hj => by simp [hj])
  exact ⟨h.1, h.2.1, h.2.2.1, h.2.2.2.1, h.2.2.2.2 0 ["a", "b"] (by decide) (by decide)⟩

/-! ### Claim C4: the partition reassembles the original list -/

theorem flatten_chunks_aux (c : Nat) (hc : 1 ≤ c) :
    ∀ (n : Nat) (l : List String), l.length ≤ n →
      ((List.range ((l.length + c - 1) / c)).map fun i => (l.drop (i * c)).take c).flatten
        = l := by
  intro n
  induction n with
  | zero =>
    intro l hl
    have hnil : l = [] := List.length_eq_zero.1 (by omega)
    subst hnil
    rw [show ((([] : List String)).length + c - 1) / c = 0 from
      Nat.div_eq_of_lt (by simp; omega)]
    rfl
  | succ n ih =>
    intro l hl
    cases l with
    | nil =>
      rw [show ((([] : List String)).length + c - 1) / c = 0 from
        Nat.div_eq_of_lt (by simp; omega)]
      rfl
    | cons a l' =>
      have hN1 : 1 ≤ (a :: l').length := by simp
      have hsplit : ((a :: l').length + c - 1) / c =
          (((a :: l').length - c) + c - 1) / c + 1 := by
        by_cases hNc : (a :: l').length ≤ c
        · have h1 : (a :: l').length - c = 0 := by omega
          rw [h1]
          rw [show (0 + c - 1) / c = 0 from Nat.div_eq_of_lt (by omega)]
          refine Nat.div_eq_of_lt_le ?_ ?_ <;> omega
        · have h2 : ((a :: l').length - c) + c - 1 = (a :: l').length - 1 := by omega
          have h3 : (a :: l').length + c - 1 = ((a :: l').length - 1) + c := by omega
          rw [h2, h3]
          exact Nat.add_div_right _ (by omega)
      rw [hsplit, List.range_succ_eq_map, List.map_cons, List.flatten_cons]
      rw [show ((a :: l').drop (0 * c)).take c = (a :: l').take c by
        rw [Nat.zero_mul, List.drop_zero]]
      rw [List.map_map]
      rw [show ((fun i => (((a :: l').drop (i * c)).take c)) ∘ Nat.succ) =
          (fun i => ((((a :: l').drop c).drop (i * c)).take c)) by
        funext i
        simp only [Function.comp]
        rw [List.drop_drop]
        congr 2
        rw [Nat.succ_eq_add_one]
        ring]
      have hlen : ((a :: l').drop c).length = (a :: l').length - c := by
        rw [List.length_drop]
      have hih := ih ((a :: l').drop c) (by rw [hlen]; simp at hl ⊢; omega)
      rw [hlen] at hih
      rw [hih]
      exact List.take_append_drop c (a :: l')

/-- C4: for a nonempty concept list and a positive chunk size, the enqueue loop
builds exactly the ceiling of N over C chunks (characterized by N being within
one chunk of jobs.length times C), concatenating the chunk item slices in
chunk-index order reproduces the original list exactly, and every chunk except
the last holds exactly C items. -/
theorem c4_partitioner (c : Nat) (t : Int) (concepts : List String)
    (jobs : List (Nat × List String))
    (hc : 1 ≤ c) (hn : 1 ≤ concepts.length)
    (hjobs : jobsOf ⟨(c : Int), t⟩ concepts = some jobs) :
    jobs.length = (concepts.length + c - 1) / c ∧
    concepts.length ≤ jobs.length * c ∧ jobs.length * c < concepts.length + c ∧
    (jobs.map Prod.snd).flatten = concepts ∧
    (∀ i j, i + 1 < jobs.length → jobs[i]? = some j → j.2.length = c) := by
  have hj := jobsOf_eq c hc t concepts
  rw [hjobs] at hj
  have hjobs' : jobs = (List.range ((concepts.length + c - 1) / c)).map
      fun i => (i, (concepts.drop (i * c)).take c) := by injection hj
  subst hjobs'
  have hlen : ((List.range ((concepts.length + c - 1) / c)).map
      fun i => (i, (concepts.drop (i * c)).take c)).length = (concepts.length + c - 1) / c := by
    rw [List.length_map, List.length_range]
  have e2 : ((concepts.length + c - 1) / c) * c ≤ concepts.length + c - 1 :=
    Nat.div_mul_le_self _ _
  have h5 := Nat.div_add_mod (concepts.length + c - 1) c
  have h6 : (concepts.length + c - 1) % c < c := Nat.mod_lt _ (by omega)
  have h7 : c * ((concepts.length + c - 1) / c) = ((concepts.length + c - 1) / c) * c :=
    Nat.mul_comm _ _
  refine ⟨hlen, ?_, ?_, ?_, ?_⟩
  · rw [hlen]
    omega
  · rw [hlen]
    omega
  · rw [List.map_map]
    rw [show ((Prod.snd ∘ fun i => ((i : Nat), (concepts.drop (i * c)).take c))) =
        (fun i => (concepts.drop (i * c)).take c) from rfl]
    exact flatten_chunks_aux c hc concepts.length concepts (le_refl _)
  · intro i j hi1 hij
    rw [hlen] at hi1
    rw [List.getElem?_map, List.getElem?_range (by omega)] at hij
    have hjval : j = (i, (concepts.drop (i * c)).take c) := by
      rw [Option.map_some'] at hij
      exact (Option.some.injEq _ _ ▸ hij).symm
    subst hjval
    show ((concepts.drop (i * c)).take c).length = c
    rw [List.length_take, List.length_drop]
    have e3 : (i + 1) * c = i * c + c := by ring
    have emul : (i + 1) * c ≤ (((concepts.length + c - 1) / c) - 1) * c :=
      Nat.mul_le_mul_right c (by omega)
    have esub : (((concepts.length + c - 1) / c) - 1) * c =
        ((concepts.length + c - 1) / c) * c - 1 * c := Nat.sub_mul _ _ _
    exact Nat.min_eq_left (by omega)

/-- C4 witness: five items with chunk size 2 give chunks of sizes 2, 2, 1
that concatenate back to the original list. -/
theorem c4_witness :
    ([(0, ["a", "b"]), (1, ["c", "d"]), (2, ["e"])] :
        List (Nat × List String)).length = ((5 : Nat) + 2 - 1) / 2 ∧
    (5 : Nat) ≤ ([(0, ["a", "b"]), (1, ["c", "d"]), (2, ["e"])] :
        List (Nat × List String)).length * 2 ∧
    (([(0, ["a", "b"]), (1, ["c", "d"]), (2, ["e"])] :
        List (Nat × List String)).length * 2 < (5 : Nat) + 2) ∧
    (([(0, ["a", "b"]), (1, ["c", "d"]), (2, ["e"])] :
        List (Nat × List String)).map Prod.snd).flatten = ["a", "b", "c", "d", "e"] ∧
    (((0 : Nat), (["a", "b"] : List String)).2).length = 2 := by
  have h := c4_partitioner 2 1 ["a", "b", "c", "d", "e"]
    [(0, ["a", "b"]), (1, ["c", "d"]), (2, ["e"])] (by decide) (by decide) (by decide)
  exact ⟨h.1, h.2.1, h.2.2.1, h.2.2.2.1, h.2.2.2.2 0 (0, ["a", "b"]) (by decide) (by decide)⟩

end Aiguide
